import Mathlib

/-!
Verification of the safe-owner-manager reconciliation engine
(`src/lib/index.js` and the variant in `src/unnamed/part_003`).

The JavaScript pipeline works on dynamically-typed values: owner addresses are
strings, and the alignment step can produce `null` placeholders.  We therefore
model a pipeline value as `OVal := Option Addr`, where `some a` is the address
string `a` and `none` is the JavaScript `null` (or the string key "null" that
an object coerces it to; no checksummed address equals "null", so the two
cannot collide with real addresses).
-/

namespace SafeOwnerManager

/-- Owner addresses are strings (as in the JavaScript source). -/
abbrev Addr := String

/-- A dynamic value in the pipeline: an address string or JavaScript `null`. -/
abbrev OVal := Option Addr

/-- The sentinel address used by the Safe owner linked list
(`const SENTINEL_OWNERS = '0x0000000000000000000000000000000000000001'`). -/
def SENTINEL_OWNERS : Addr := "0x0000000000000000000000000000000000000001"

/-- One edit operation, as produced by `calculateEditOperations`
(`{type:'swap',oldOwner,newOwner}`, `{type:'add',owner}`, `{type:'remove',owner}`). -/
inductive EditOp (α : Type) where
  | swap (oldOwner newOwner : α)
  | add (owner : α)
  | remove (owner : α)
deriving DecidableEq, Repr

/-- The owner values referenced by an edit operation. -/
def EditOp.ownerVals {α : Type} : EditOp α → List α
  | .swap o n => [o, n]
  | .add o => [o]
  | .remove o => [o]

/-- True exactly for `add` and `remove` operations (the JS `hasAddOrRemove` flag
is set in those two branches of the processing loop and nowhere else). -/
def EditOp.isAddOrRemove {α : Type} : EditOp α → Bool
  | .swap _ _ => false
  | .add _ => true
  | .remove _ => true

/-- True exactly for `swap` operations (`op.type === 'swap'`). -/
def EditOp.isSwap {α : Type} : EditOp α → Bool
  | .swap _ _ => true
  | _ => false

/-! ## Owner alignment (`reorderNewOwners`, src/lib/index.js lines 180-207)

The first loop walks `currentOwners`; owners also present in the remaining
pool keep their index, other indices get a `null` placeholder.  The JS `Set`
of remaining new owners is modelled as an insertion-ordered duplicate-free
list (`generateTransactions` rejects duplicate new owners before calling
`reorderNewOwners`, and for duplicate-free input a JS `Set` is exactly the
list with `Set.delete` removing the one occurrence). -/

/-- First loop of `reorderNewOwners`: place matching owners at their current
index, mark holes with `none`, and thread the pool of remaining new owners. -/
def alignPass : List Addr → List Addr → List OVal × List Addr
  | [], pool => ([], pool)
  | c :: cs, pool =>
    if c ∈ pool then
      let r := alignPass cs (pool.erase c)
      (some c :: r.1, r.2)
    else
      let r := alignPass cs pool
      (none :: r.1, r.2)

/-- Second loop of `reorderNewOwners`: fill placeholders left-to-right from the
remaining pool (`if (!reordered[i] && remainingNewOwnersArray.length > 0)`);
when the pool is exhausted the placeholder is left in place. -/
def fillHoles : List OVal → List Addr → List OVal × List Addr
  | [], pool => ([], pool)
  | some a :: rest, pool =>
    let r := fillHoles rest pool
    (some a :: r.1, r.2)
  | none :: rest, [] =>
    let r := fillHoles rest []
    (none :: r.1, r.2)
  | none :: rest, q :: qs =>
    let r := fillHoles rest qs
    (some q :: r.1, r.2)

/-- `reorderNewOwners(currentOwners, newOwners)`: align, fill holes, then
append the leftover new owners past the end (`reordered.push(...rest)`). -/
def reorderNewOwners (currentOwners newOwners : List Addr) : List OVal :=
  let a := alignPass currentOwners newOwners
  let f := fillHoles a.1 a.2
  f.1 ++ f.2.map some

/-! ## Edit-script engine (`calculateEditOperations`, src/lib/index.js lines 210-283)

The JS code fills an `(m+1) × (n+1)` matrix `dp` and then backtracks from
`(m, n)`.  `editDP xs ys i j` is the value the JS loop stores in `dp[i][j]`:
the fill order (row by row) only matters operationally, the stored value
satisfies exactly the recurrence below.  The comparison `currentOwner ===
newOwner` is decidable equality on pipeline values (`null === null` is true in
JS, matching `none = none`). -/

/-- Inner recursion for one row of the edit-distance matrix: `prev` is row
`i` (as a function of the column), and the result computes row `i+1`. -/
def editDPgo {α : Type} [DecidableEq α] (prev : Nat → Nat) (xs ys : List α) (i : Nat) :
    Nat → Nat
  | 0 => i + 1
  | j + 1 =>
    if xs.get? i = ys.get? j then prev j
    else
      min (prev j + 1) (min (editDPgo prev xs ys i j + 1) (prev (j + 1) + 1))

/-- `editDP xs ys i j` is the matrix entry `dp[i][j]` of `calculateEditOperations`:
`dp[i][0] = i`, `dp[0][j] = j`, and for `i,j ≥ 1` either a diagonal copy on a
match or `1 +` the minimum of substitution, insertion and deletion costs
(in the order the JS `Math.min(substitutionCost, insertionCost, deletionCost)`
lists them). -/
def editDP {α : Type} [DecidableEq α] (xs ys : List α) : Nat → Nat → Nat
  | 0 => fun j => j
  | i + 1 => editDPgo (editDP xs ys i) xs ys i

/-- Backtracking loop of `calculateEditOperations`.  The JS `while (i > 0 || j > 0)`
loop decreases `i + j` at every iteration, so `fuel := i + j` bounds the number
of iterations exactly; `backtrack_spec` below proves the fuel never runs out and
the final `else` branch (`throw new Error('Error computing edit operations.')`,
modelled as `none`) is never taken.  Operations are `unshift`ed in JS, so the
list is produced in ascending position order, which the recursion reproduces by
appending each operation after the ops of the smaller indices. -/
def backtrackAux {α : Type} [DecidableEq α] [Inhabited α] (xs ys : List α) :
    Nat → Nat → Nat → Option (List (EditOp α))
  | 0, i, j => if i = 0 ∧ j = 0 then some [] else none
  | f + 1, i, j =>
    if i = 0 ∧ j = 0 then some []
    else if 0 < i ∧ 0 < j ∧ xs.get? (i - 1) = ys.get? (j - 1) then
      backtrackAux xs ys f (i - 1) (j - 1)
    else if 0 < i ∧ 0 < j ∧ editDP xs ys i j = editDP xs ys (i - 1) (j - 1) + 1 then
      (backtrackAux xs ys f (i - 1) (j - 1)).map
        (· ++ [.swap (xs.getD (i - 1) default) (ys.getD (j - 1) default)])
    else if 0 < j ∧ editDP xs ys i j = editDP xs ys i (j - 1) + 1 then
      (backtrackAux xs ys f i (j - 1)).map (· ++ [.add (ys.getD (j - 1) default)])
    else if 0 < i ∧ editDP xs ys i j = editDP xs ys (i - 1) j + 1 then
      (backtrackAux xs ys f (i - 1) j).map (· ++ [.remove (xs.getD (i - 1) default)])
    else none

/-- `calculateEditOperations(currentOwners, newOwners)`: build the matrix and
backtrack from `(m, n)`.  `none` models the unreachable
`throw new Error('Error computing edit operations.')`. -/
def calculateEditOperations {α : Type} [DecidableEq α] [Inhabited α] (xs ys : List α) :
    Option (List (EditOp α)) :=
  backtrackAux xs ys (xs.length + ys.length) xs.length ys.length

/-! ## Reference edit distance

`lev` is the textbook unit-cost Levenshtein distance, defined by structural
recursion on the heads of the two lists — independent of the matrix/backtrack
code above.  It is related to Mathlib's `levenshtein Levenshtein.defaultCost`
by `lev_eq_levenshtein` below. -/

/-- Textbook unit-cost edit distance (reference definition for C5). -/
def lev {α : Type} [DecidableEq α] : List α → List α → Nat
  | [], ys => ys.length
  | _ :: xs, [] => xs.length + 1
  | x :: xs, y :: ys =>
    if x = y then lev xs ys
    else 1 + min (lev xs ys) (min (lev (x :: xs) ys) (lev xs (y :: ys)))
termination_by xs ys => xs.length + ys.length
decreasing_by all_goals simp_arith

/-- An edit script of cost `n` transforming one list into another: keep a
matching head for free, or substitute / insert / delete at cost one.  Used to
prove that `lev` is invariant under simultaneous reversal. -/
inductive EditSeq {α : Type} : List α → List α → Nat → Prop where
  | nil : EditSeq [] [] 0
  | keep (a : α) {xs ys : List α} {n : Nat} :
      EditSeq xs ys n → EditSeq (a :: xs) (a :: ys) n
  | subst (a b : α) {xs ys : List α} {n : Nat} :
      EditSeq xs ys n → EditSeq (a :: xs) (b :: ys) (n + 1)
  | ins (b : α) {xs ys : List α} {n : Nat} :
      EditSeq xs ys n → EditSeq xs (b :: ys) (n + 1)
  | del (a : α) {xs ys : List α} {n : Nat} :
      EditSeq xs ys n → EditSeq (a :: xs) ys (n + 1)

/-! ## Linked-list simulator

The JS `ownerLinkedList` is a plain object mapping an owner address (or the
sentinel) to its successor.  We model it as an insertion-ordered association
list: `objSet` overwrites in place or appends (JS property assignment),
`objDelete` removes the key (`delete` operator), and iteration order in
`Object.entries` is insertion order.  A JS `null` used as an object key is
coerced to the string "null"; both it and the `null` value are modelled as
`none` (no checksummed address is the string "null", so nothing collides). -/

/-- The linked-list object: insertion-ordered association list. -/
abbrev LL := List (OVal × OVal)

/-- Property read `m[k]`: `none` models JS `undefined` (key absent). -/
def objGet (m : LL) (k : OVal) : Option OVal :=
  (m.find? (fun p => p.1 = k)).map (fun p => p.2)

/-- Property write `m[k] = v`: overwrite in place if the key exists
(keeping its position), otherwise append. -/
def objSet (m : LL) (k v : OVal) : LL :=
  if m.any (fun p => p.1 = k) then
    m.map (fun p => if p.1 = k then (k, v) else p)
  else m ++ [(k, v)]

/-- Property deletion `delete m[k]`. -/
def objDelete (m : LL) (k : OVal) : LL :=
  m.filter (fun p => ¬(p.1 = k))

/-- `getPrevOwner(owner, ownerLinkedList)` (src/lib/index.js lines 387-394):
first key (in insertion order) whose value is `owner`, else JS `null`. -/
def getPrevOwner (owner : OVal) (m : LL) : OVal :=
  ((m.find? (fun p => p.2 = owner)).map (fun p => p.1)).getD none

/-- One step bound for `getLastOwner`: the JS `while` loop stops when `m[cur]`
is falsy (absent, or the value `null`) or equals the sentinel.  The loop has no
built-in bound; `m.length` steps suffice in every state the pipeline builds
(the walk visits distinct keys), so the fuel is `m.length`. -/
def getLastOwnerAux (m : LL) (sent : OVal) : Nat → OVal → OVal
  | 0, cur => cur
  | f + 1, cur =>
    match objGet m cur with
    | none => cur
    | some v => if v = sent ∨ v = none then cur else getLastOwnerAux m sent f v

/-- `getLastOwner(ownerLinkedList, sentinel)` (src/lib/index.js lines 396-403). -/
def getLastOwner (m : LL) (sent : OVal) : OVal :=
  getLastOwnerAux m sent m.length sent

/-- The pairwise loop of `buildOwnerLinkedList`:
`for i in 0..len-2: lll[cur[i]] = cur[i+1]`. -/
def addPairs (m : LL) : List OVal → LL
  | a :: b :: rest => addPairs (objSet m a b) (b :: rest)
  | _ => m

/-- `buildOwnerLinkedList(currentOwners, sentinel)` (src/lib/index.js lines
286-298): `lll[sentinel] = currentOwners[0] || sentinel`, the chain
assignments, and `lll[last] = sentinel` when the list is non-empty. -/
def buildOwnerLinkedList (cur : List OVal) (sent : OVal) : LL :=
  let m0 := objSet [] sent (cur.headD sent)
  let m1 := addPairs m0 cur
  match cur.getLast? with
  | some last => objSet m1 last sent
  | none => m1

/-- `updateOwnerLinkedList(oldOwner, newOwner, ownerLinkedList)` (src/lib/index.js
lines 406-411): `m[prev] = newOwner; m[newOwner] = m[oldOwner]; delete m[oldOwner]`,
where the second read happens after the first write (mutation order preserved). -/
def updateOwnerLinkedList (oldOwner newOwner : OVal) (m : LL) : LL :=
  let prev := getPrevOwner oldOwner m
  let m1 := objSet m prev newOwner
  let m2 := objSet m1 newOwner ((objGet m1 oldOwner).getD none)
  objDelete m2 oldOwner

/-! ## Transaction assembly (`generateTransactions` processing loop, lines 98-142) -/

/-- One proposed transaction (the JSON transaction descriptor): `toAddress`
models the JSON key `to`, `contractMethod.inputs` entries are
`(internalType, name, type)` triples and `argsValues` is the ordered
`contractInputsValues` field list; values are address values (`OVal`) or
decimal strings wrapped in `some`. -/
structure Tx where
  toAddress : Addr
  value : String
  data : Option String
  methodName : String
  methodInputs : List (String × String × String)
  payable : Bool
  argsValues : List (String × OVal)
deriving DecidableEq, Repr

/-- `createSwapOwnerTransaction` (src/lib/index.js lines 301-321). -/
def createSwapOwnerTransaction (safeAddress : Addr) (oldOwner newOwner : OVal)
    (m : LL) : Tx :=
  { toAddress := safeAddress
    value := "0"
    data := none
    methodName := "swapOwner"
    methodInputs :=
      [("address", "prevOwner", "address"),
       ("address", "oldOwner", "address"),
       ("address", "newOwner", "address")]
    payable := false
    argsValues :=
      [("prevOwner", getPrevOwner oldOwner m),
       ("oldOwner", oldOwner),
       ("newOwner", newOwner)] }

/-- `createAddOwnerTransaction` (src/lib/index.js lines 324-342);
`_threshold` is `threshold.toString()`. -/
def createAddOwnerTransaction (safeAddress : Addr) (newOwner : OVal)
    (threshold : Int) : Tx :=
  { toAddress := safeAddress
    value := "0"
    data := none
    methodName := "addOwnerWithThreshold"
    methodInputs :=
      [("address", "owner", "address"),
       ("uint256", "_threshold", "uint256")]
    payable := false
    argsValues :=
      [("owner", newOwner),
       ("_threshold", some (toString threshold))] }

/-- `createRemoveOwnerTransaction` (src/lib/index.js lines 345-365). -/
def createRemoveOwnerTransaction (safeAddress : Addr) (oldOwner : OVal)
    (threshold : Int) (m : LL) : Tx :=
  { toAddress := safeAddress
    value := "0"
    data := none
    methodName := "removeOwner"
    methodInputs :=
      [("address", "prevOwner", "address"),
       ("address", "owner", "address"),
       ("uint256", "_threshold", "uint256")]
    payable := false
    argsValues :=
      [("prevOwner", getPrevOwner oldOwner m),
       ("owner", oldOwner),
       ("_threshold", some (toString threshold))] }

/-- `createChangeThresholdTransaction` (src/lib/index.js lines 368-384). -/
def createChangeThresholdTransaction (safeAddress : Addr) (newThreshold : Int) : Tx :=
  { toAddress := safeAddress
    value := "0"
    data := none
    methodName := "changeThreshold"
    methodInputs := [("uint256", "_threshold", "uint256")]
    payable := false
    argsValues := [("_threshold", some (toString newThreshold))] }

/-- The `prevOwner` argument of a transaction, when it has one. -/
def Tx.prevOwnerArg (tx : Tx) : Option OVal :=
  (tx.argsValues.find? (fun p => p.1 = "prevOwner")).map (fun p => p.2)

/-- The linked-list mutation the processing loop performs for one operation
(the inline updates at src/lib/index.js lines 111-114, 125-128 and 139-140;
they coincide with the spec's `applyRemove`, `applyAdd`, `applySwap`). -/
def applyOp (sent : OVal) (m : LL) : EditOp OVal → LL
  | .remove o =>
    let prev := getPrevOwner o m
    objDelete (objSet m prev ((objGet m o).getD none)) o
  | .add o =>
    let lastOwner := getLastOwner m sent
    objSet (objSet m lastOwner o) o sent
  | .swap old new => updateOwnerLinkedList old new m

/-- Replay of a prefix of operations against a linked list. -/
def applyOps (sent : OVal) (m : LL) (ops : List (EditOp OVal)) : LL :=
  ops.foldl (applyOp sent) m

/-- The transaction the processing loop emits for one operation, built from
the linked-list state `m` at that moment. -/
def mkTxForOp (safeAddress : Addr) (threshold : Int) (m : LL) : EditOp OVal → Tx
  | .remove o => createRemoveOwnerTransaction safeAddress o threshold m
  | .add o => createAddOwnerTransaction safeAddress o threshold
  | .swap old new => createSwapOwnerTransaction safeAddress old new m

/-- The processing loop of `generateTransactions` (src/lib/index.js lines
98-142): for each operation, first create the transaction from the current
linked list, then mutate the list, then continue.  Returns the final list and
the transactions in emission order. -/
def processOps (safeAddress : Addr) (threshold : Int) (sent : OVal) :
    LL → List (EditOp OVal) → LL × List Tx
  | m, [] => (m, [])
  | m, op :: rest =>
    let tx := mkTxForOp safeAddress threshold m op
    let r := processOps safeAddress threshold sent (applyOp sent m op) rest
    (r.1, tx :: r.2)

/-! ## The assembled batch (`generateTransactions`, post-fetch part) -/

/-- The `meta` object of the output JSON. -/
structure BatchMeta where
  name : String
  description : String
  txBuilderVersion : String
  createdFromSafeAddress : String
  createdFromOwnerAddress : String
  checksum : String
deriving DecidableEq, Repr

/-- The output JSON document.  `createdAt` is the `Date.now()` timestamp,
passed in as a parameter since it is an effect. -/
structure Batch where
  version : String
  chainId : String
  createdAt : Nat
  meta : BatchMeta
  transactions : List Tx
deriving DecidableEq, Repr

/-- Everything `generateTransactions` (src/lib/index.js lines 70-176) does
after the two contract reads return: resolve the threshold, reject duplicate
new owners, align, compute the edit script, process it against the linked
list, and decide the trailing `changeThreshold`.  Inputs `safeAddressChecksum`,
`currentOwners` and `validatedNewOwners` are the already-normalized values the
JS code holds at that point.  The returned batch has `meta.checksum = ''`; the
final stamping step overwrites it with the keccak256 hash of
`serializeForChecksum` (modelled separately below, since `calculateChecksum`
factors through that serialization). -/
def generateBatch (safeAddressChecksum : Addr) (chainId : String) (createdAt : Nat)
    (currentOwners : List Addr) (currentThreshold : Int)
    (validatedNewOwners : List Addr) (newThreshold : Option Int) :
    Except String Batch :=
  let threshold := newThreshold.getD currentThreshold
  if ¬validatedNewOwners.Nodup then
    .error "Duplicate addresses found in the new owners list."
  else
    let reordered := reorderNewOwners currentOwners validatedNewOwners
    let sent : OVal := some SENTINEL_OWNERS
    let m0 := buildOwnerLinkedList (currentOwners.map some) sent
    match calculateEditOperations (currentOwners.map some) reordered with
    | none => .error "Error computing edit operations."
    | some ops =>
      let r := processOps safeAddressChecksum threshold sent m0 ops
      let hasAddOrRemove := ops.any (fun op => op.isAddOrRemove)
      let txs :=
        if threshold ≠ currentThreshold ∧ hasAddOrRemove = false ∧
            ops.any (fun op => op.isSwap) then
          r.2 ++ [createChangeThresholdTransaction safeAddressChecksum threshold]
        else r.2
      .ok
        { version := "1.0"
          chainId := chainId
          createdAt := createdAt
          meta :=
            { name := "Transactions Batch"
              description := ""
              txBuilderVersion := "1.0.0"
              createdFromSafeAddress := safeAddressChecksum
              createdFromOwnerAddress := ""
              checksum := "" }
          transactions := txs }

/-- The threshold guard of the `src/unnamed/part_003` variant (lines 451-454):
`if (threshold > validatedNewOwners.length) throw new Error('Threshold is
bigger than the number of new owners.')`.  The primary `src/lib/index.js` has
no threshold validation at all. -/
def thresholdGuard (threshold : Int) (newOwnersCount : Nat) : Except String Unit :=
  if threshold > (newOwnersCount : Int) then
    .error "Threshold is bigger than the number of new owners."
  else .ok ()

/-! ## Claim-side semantics: set replay and chain walk

These definitions come from the claim texts, not from the JS code: they give
the reference meaning against which the code is judged.  `replayOp` is the
claims' replay semantics ("swap replaces old with new, remove deletes, add
inserts") over a duplicate-free list used as a set; `chainVisits` walks the
successor chain from the sentinel, the claims' reading of the linked-list
invariant. -/

/-- Set-insert: prepend when absent (set semantics; position irrelevant for
set comparison). -/
def setInsert (v : OVal) (s : List OVal) : List OVal :=
  if v ∈ s then s else v :: s

/-- Replay one edit operation against an owner set. -/
def replayOp (s : List OVal) : EditOp OVal → List OVal
  | .remove o => s.erase o
  | .add o => setInsert o s
  | .swap old new => setInsert new (s.erase old)

/-- Replay a whole operation sequence, in order. -/
def replayOps (s : List OVal) (ops : List (EditOp OVal)) : List OVal :=
  ops.foldl replayOp s

/-- Successor-chain walk from `cur`, collecting the visited values; stops when
the successor is the sentinel, absent, or `null`.  Fuel `m.length + 1` is
enough to expose any failure of the invariant: a well-formed `m` reaches the
sentinel within `m.length` steps. -/
def chainWalkAux (m : LL) (sent : OVal) : Nat → OVal → List OVal
  | 0, _ => []
  | f + 1, cur =>
    match objGet m cur with
    | none => []
    | some v => if v = sent then [] else v :: chainWalkAux m sent f v

/-- All values visited when following successors from the sentinel. -/
def chainVisits (m : LL) (sent : OVal) : List OVal :=
  chainWalkAux m sent (m.length + 1) sent

/-! ## Checksum serialization (`calculateChecksum`, src/lib/index.js lines 414-425)

`calculateChecksum` clones the batch, blanks `meta.checksum`, and hashes
`JSON.stringify(dataForChecksum, Object.keys(dataForChecksum).sort())`.
Passing an **array** as the second argument of `JSON.stringify` makes it a
property list (ECMA-262 `SerializeJSONObject`): every non-array object in the
tree is serialized by iterating exactly the keys of that list, in list order,
keeping only the properties it actually has.  The list here is the sorted
top-level key list `["chainId","createdAt","meta","transactions","version"]`;
array elements are always serialized.  `JVal`/`stringifyWith` transcribe that
algorithm; `serializeForChecksum` is the composite the checksum hashes (the
final checksum is `'0x' + keccak256(thatString).toString('hex')`, so two
batches with equal serializations have equal checksums). -/

/-- A JSON value (enough for the batch document). -/
inductive JVal where
  | str (s : String)
  | num (n : Nat)
  | nul
  | bool (b : Bool)
  | obj (fields : List (String × JVal))
  | arr (elems : List JVal)

/-- Comma-join, as `JSON.stringify` separates members. -/
def joinComma : List String → String
  | [] => ""
  | [s] => s
  | s :: rest => s ++ "," ++ joinComma rest

/-- JSON string quoting (none of the strings in a batch need escaping). -/
def jquote (s : String) : String := "\"" ++ s ++ "\""

/-- Assemble an object body: iterate the property list `K` in order, keeping
only keys the object has (ECMA-262 `SerializeJSONObject` with PropertyList). -/
def assembleObj (K : List String) (fs : List (String × String)) : List String :=
  K.filterMap (fun k => ((fs.find? (fun p => p.1 = k)).map (fun p => jquote k ++ ":" ++ p.2)))

/-- ECMA-262 `SerializeJSONValue` with a fixed property list `K`.  The first
argument is a bound on the nesting depth, only so that the recursion is
structural: the batch document has a fixed shape of depth at most 7, and
`serializeForChecksum` passes 16, so the bound is never reached. -/
def stringifyWith (K : List String) : Nat → JVal → String
  | 0, _ => ""
  | _ + 1, .str s => jquote s
  | _ + 1, .num n => toString n
  | _ + 1, .nul => "null"
  | _ + 1, .bool b => if b then "true" else "false"
  | f + 1, .obj fields =>
    "\x7b" ++
      joinComma (assembleObj K (fields.map (fun p => (p.1, stringifyWith K f p.2)))) ++
      "\x7d"
  | f + 1, .arr es => "[" ++ joinComma (es.map (stringifyWith K f)) ++ "]"

/-- One transaction as a JSON value, fields in source order. -/
def txToJVal (tx : Tx) : JVal :=
  .obj
    [("to", .str tx.toAddress),
     ("value", .str tx.value),
     ("data", match tx.data with | none => .nul | some s => .str s),
     ("contractMethod", .obj
       [("inputs", .arr (tx.methodInputs.map (fun t =>
           .obj [("internalType", .str t.1), ("name", .str t.2.1), ("type", .str t.2.2)]))),
        ("name", .str tx.methodName),
        ("payable", .bool tx.payable)]),
     ("contractInputsValues", .obj
       (tx.argsValues.map (fun p => (p.1, match p.2 with | none => JVal.nul | some s => .str s))))]

/-- The batch document as a JSON value, fields in the insertion order of
`jsonOutput` (src/lib/index.js lines 156-169). -/
def batchToJVal (b : Batch) : JVal :=
  .obj
    [("version", .str b.version),
     ("chainId", .str b.chainId),
     ("createdAt", .num b.createdAt),
     ("meta", .obj
       [("name", .str b.meta.name),
        ("description", .str b.meta.description),
        ("txBuilderVersion", .str b.meta.txBuilderVersion),
        ("createdFromSafeAddress", .str b.meta.createdFromSafeAddress),
        ("createdFromOwnerAddress", .str b.meta.createdFromOwnerAddress),
        ("checksum", .str b.meta.checksum)]),
     ("transactions", .arr (b.transactions.map txToJVal))]

/-- The sorted top-level key list `Object.keys(dataForChecksum).sort()`:
the keys of `jsonOutput` are `version`, `chainId`, `createdAt`, `meta`,
`transactions`, and the default `Array.prototype.sort` orders them
lexicographically as below. -/
def checksumKeyList : List String :=
  ["chainId", "createdAt", "meta", "transactions", "version"]

/-- Blank the checksum field (`dataForChecksum.meta.checksum = ''`). -/
def blankChecksum (b : Batch) : Batch :=
  { b with meta := { b.meta with checksum := "" } }

/-- The exact string `calculateChecksum` feeds to keccak256. -/
def serializeForChecksum (b : Batch) : String :=
  stringifyWith checksumKeyList 16 (batchToJVal (blankChecksum b))

/-! ## Address validation and normalization (`generateTransactions` lines 39-49)

`ethers.getAddress` is an external library function (not part of this
repository).  Modelled from the spec: "OwnerAddress: unique account identifier
(fixed-width, checksum-normalizable)" and the ValidationError for malformed
addresses — `getAddressModel` accepts exactly `0x` followed by 40 hex digits
and returns the checksum-normalized canonical form, modelled as the
lowercase-hex representative (the EIP-55 recapitalization is a bijective
re-encoding of that representative, so identity of normal forms is faithfully
represented; the real `getAddress` additionally rejects mixed-case strings
whose capitalization fails the EIP-55 checksum, which only shrinks the set of
accepted inputs). -/

/-- Lowercase the six uppercase hex letters (all that can appear in a valid
address); other characters unchanged. -/
def lowerHexChar (c : Char) : Char :=
  if c = 'A' then 'a'
  else if c = 'B' then 'b'
  else if c = 'C' then 'c'
  else if c = 'D' then 'd'
  else if c = 'E' then 'e'
  else if c = 'F' then 'f'
  else c

/-- Lowercase-hex canonical form of an address string. -/
def lowerHexStr (s : String) : String :=
  String.mk (s.data.map lowerHexChar)

/-- Hex digit test. -/
def isHexChar (c : Char) : Bool :=
  ("0123456789abcdefABCDEF".data).contains c

/-- Modelled from the spec: `ethers.getAddress` — validate the address format
and return its checksum-normalized canonical form. -/
def getAddressModel (s : String) : Except String Addr :=
  if s.length = 42 ∧ s.take 2 = "0x" ∧ (s.drop 2).data.all isHexChar then
    .ok (lowerHexStr s)
  else .error ("invalid address: " ++ s)

/-- An address already in canonical (normalized) form. -/
def isNormalized (a : Addr) : Prop := lowerHexStr a = a

/-- Whitespace for the purposes of `String.prototype.trim` (the characters
that can realistically surround an address argument). -/
def isWhitespaceChar (c : Char) : Bool :=
  c = ' ' ∨ c = '\t' ∨ c = '\n' ∨ c = '\r'

/-- The model of `addr.trim()`: strip leading and trailing whitespace. -/
def trimString (s : String) : String :=
  String.mk (((s.data.dropWhile isWhitespaceChar).reverse.dropWhile
    isWhitespaceChar).reverse)

/-- The `newOwners.map(...)` validation loop (src/lib/index.js lines 40-49):
trim, normalize, throw `Invalid Ethereum address: ${addr}` on the first
failure.  This runs before the provider is created (line 52) and before any
contract read (lines 66-68), so it uses no network state. -/
def validateNewOwners : List String → Except String (List Addr)
  | [] => .ok []
  | addr :: rest =>
    match getAddressModel (trimString addr) with
    | .error _ => .error ("Invalid Ethereum address: " ++ addr)
    | .ok a =>
      match validateNewOwners rest with
      | .error e => .error e
      | .ok as => .ok (a :: as)

/-- The owner-address argument values of a transaction: the values of the
address-typed `contractInputsValues` fields (`prevOwner`, `oldOwner`,
`newOwner`, `owner`). -/
def Tx.ownerArgVals (tx : Tx) : List OVal :=
  (tx.argsValues.filter
    (fun p => p.1 = "prevOwner" ∨ p.1 = "oldOwner" ∨ p.1 = "newOwner" ∨ p.1 = "owner")).map
    (fun p => p.2)

/-- Every address value appearing in the output batch: the `to` target of each
transaction, its owner-address arguments, and `meta.createdFromSafeAddress`. -/
def batchAddressVals (b : Batch) : List OVal :=
  (b.transactions.flatMap (fun tx => some tx.toAddress :: tx.ownerArgVals)) ++
    [some b.meta.createdFromSafeAddress]

/-- A pipeline value is normalized if it is `null` or a normalized address. -/
def OValNorm (v : OVal) : Prop := ∀ a, v = some a → isNormalized a

/-- All keys and values of a linked list are normalized values. -/
def LLNorm (m : LL) : Prop := ∀ p ∈ m, OValNorm p.1 ∧ OValNorm p.2

/-- Decidable equality for `Except`, needed to evaluate pipeline results. -/
instance {EE AA : Type} [DecidableEq EE] [DecidableEq AA] : DecidableEq (Except EE AA) :=
  fun x y =>
    match x, y with
    | .ok a, .ok b =>
      if h : a = b then .isTrue (by rw [h]) else .isFalse (by intro hc; cases hc; exact h rfl)
    | .error e, .error f =>
      if h : e = f then .isTrue (by rw [h]) else .isFalse (by intro hc; cases hc; exact h rfl)
    | .ok _, .error _ => .isFalse (by intro hc; cases hc)
    | .error _, .ok _ => .isFalse (by intro hc; cases hc)

/-! # Theorems -/

/-! ## Reference edit distance: basic equations and step bounds -/

@[simp]
theorem lev_nil_left {α : Type} [DecidableEq α] (ys : List α) : lev [] ys = ys.length := by
  cases ys <;> simp [lev]

@[simp]
theorem lev_nil_right {α : Type} [DecidableEq α] (xs : List α) : lev xs [] = xs.length := by
  cases xs <;> simp [lev]

theorem lev_cons_cons {α : Type} [DecidableEq α] (x y : α) (xs ys : List α) :
    lev (x :: xs) (y :: ys) =
      if x = y then lev xs ys
      else 1 + min (lev xs ys) (min (lev (x :: xs) ys) (lev xs (y :: ys))) := by
  rw [lev]

/-- Adding or removing one element at the head of either argument changes
`lev` by at most one (all four directions, proved together by strong induction
on the total length). -/
theorem lev_step_bounds {α : Type} [DecidableEq α] :
    ∀ (N : Nat) (xs ys : List α), xs.length + ys.length ≤ N →
      (∀ b, lev xs (b :: ys) ≤ lev xs ys + 1) ∧
      (∀ a, lev xs ys ≤ lev (a :: xs) ys + 1) ∧
      (∀ a, lev (a :: xs) ys ≤ lev xs ys + 1) ∧
      (∀ b, lev xs ys ≤ lev xs (b :: ys) + 1) := by
  intro N
  induction N with
  | zero =>
    intro xs ys h
    have hx : xs = [] := List.length_eq_zero.mp (by omega)
    have hy : ys = [] := List.length_eq_zero.mp (by omega)
    subst hx; subst hy
    refine ⟨?_, ?_, ?_, ?_⟩ <;> intro c <;> simp [lev]
  | succ N ih =>
    intro xs ys h
    refine ⟨?_, ?_, ?_, ?_⟩
    · intro b
      match xs with
      | [] => simp
      | x :: xs' =>
        rw [lev_cons_cons]
        by_cases hxb : x = b
        · rw [if_pos hxb]
          have := (ih xs' ys (by simp at h; omega)).2.1 x
          omega
        · rw [if_neg hxb]
          omega
    · intro a
      match ys with
      | [] => simp; omega
      | y :: ys' =>
        rw [lev_cons_cons]
        by_cases hay : a = y
        · rw [if_pos hay]
          subst hay
          have := (ih xs ys' (by simp at h; omega)).1 a
          omega
        · rw [if_neg hay]
          have h1 := (ih xs ys' (by simp at h; omega)).1 y
          have h2 := (ih xs ys' (by simp at h; omega)).2.1 a
          omega
    · intro a
      match ys with
      | [] => simp
      | y :: ys' =>
        rw [lev_cons_cons]
        by_cases hay : a = y
        · rw [if_pos hay]
          have := (ih xs ys' (by simp at h; omega)).2.2.2 y
          omega
        · rw [if_neg hay]
          omega
    · intro b
      match xs with
      | [] => simp; omega
      | x :: xs' =>
        rw [lev_cons_cons]
        by_cases hxb : x = b
        · rw [if_pos hxb]
          have := (ih xs' ys (by simp at h; omega)).2.2.1 x
          omega
        · rw [if_neg hxb]
          have h1 := (ih xs' ys (by simp at h; omega)).2.2.1 x
          have h2 := (ih xs' ys (by simp at h; omega)).2.2.2 b
          omega

/-! ## Edit scripts and reversal invariance -/

theorem EditSeq.keep_snoc {α : Type} {xs ys : List α} {n : Nat} (a : α)
    (h : EditSeq xs ys n) : EditSeq (xs ++ [a]) (ys ++ [a]) n := by
  induction h with
  | nil => exact .keep a .nil
  | keep b _ ih => exact .keep b ih
  | subst b c _ ih => exact .subst b c ih
  | ins b _ ih => exact .ins b ih
  | del b _ ih => exact .del b ih

theorem EditSeq.subst_snoc {α : Type} {xs ys : List α} {n : Nat} (a b : α)
    (h : EditSeq xs ys n) : EditSeq (xs ++ [a]) (ys ++ [b]) (n + 1) := by
  induction h with
  | nil => exact .subst a b .nil
  | keep c _ ih => exact .keep c ih
  | subst c d _ ih => exact .subst c d ih
  | ins c _ ih => exact .ins c ih
  | del c _ ih => exact .del c ih

theorem EditSeq.ins_snoc {α : Type} {xs ys : List α} {n : Nat} (b : α)
    (h : EditSeq xs ys n) : EditSeq xs (ys ++ [b]) (n + 1) := by
  induction h with
  | nil => exact .ins b .nil
  | keep c _ ih => exact .keep c ih
  | subst c d _ ih => exact .subst c d ih
  | ins c _ ih => exact .ins c ih
  | del c _ ih => exact .del c ih

theorem EditSeq.del_snoc {α : Type} {xs ys : List α} {n : Nat} (a : α)
    (h : EditSeq xs ys n) : EditSeq (xs ++ [a]) ys (n + 1) := by
  induction h with
  | nil => exact .del a .nil
  | keep c _ ih => exact .keep c ih
  | subst c d _ ih => exact .subst c d ih
  | ins c _ ih => exact .ins c ih
  | del c _ ih => exact .del c ih

/-- An edit script for the reversed lists, with the same cost. -/
theorem EditSeq.reverse {α : Type} {xs ys : List α} {n : Nat}
    (h : EditSeq xs ys n) : EditSeq xs.reverse ys.reverse n := by
  induction h with
  | nil => exact .nil
  | keep a _ ih => simpa using ih.keep_snoc a
  | subst a b _ ih => simpa using ih.subst_snoc a b
  | ins b _ ih => simpa using ih.ins_snoc b
  | del a _ ih => simpa using ih.del_snoc a

theorem editSeq_nil_left {α : Type} (ys : List α) : EditSeq [] ys ys.length := by
  induction ys with
  | nil => exact .nil
  | cons y ys ih => exact .ins y ih

/-- `lev` is realizable: there is an edit script of cost `lev xs ys`. -/
theorem editSeq_lev {α : Type} [DecidableEq α] :
    ∀ (xs ys : List α), EditSeq xs ys (lev xs ys)
  | [], ys => by simpa using editSeq_nil_left ys
  | x :: xs, [] => by
    have : EditSeq (x :: xs) [] (xs.length + 1) := by
      clear editSeq_lev
      induction xs generalizing x with
      | nil => exact .del x .nil
      | cons z zs ih => exact .del x (ih z)
    simpa [lev] using this
  | x :: xs, y :: ys => by
    rw [lev_cons_cons]
    by_cases hxy : x = y
    · rw [if_pos hxy]
      subst hxy
      exact .keep x (editSeq_lev xs ys)
    · rw [if_neg hxy]
      have h1 := editSeq_lev xs ys
      have h2 := editSeq_lev (x :: xs) ys
      have h3 := editSeq_lev xs (y :: ys)
      rcases show 1 + min (lev xs ys) (min (lev (x :: xs) ys) (lev xs (y :: ys)))
            = lev xs ys + 1 ∨
          1 + min (lev xs ys) (min (lev (x :: xs) ys) (lev xs (y :: ys)))
            = lev (x :: xs) ys + 1 ∨
          1 + min (lev xs ys) (min (lev (x :: xs) ys) (lev xs (y :: ys)))
            = lev xs (y :: ys) + 1 by omega with h | h | h
      · rw [h]; exact .subst x y h1
      · rw [h]; exact .ins y h2
      · rw [h]; exact .del x h3
termination_by xs ys => xs.length + ys.length
decreasing_by all_goals simp_arith

/-- `lev` is optimal: no edit script costs less. -/
theorem lev_le_of_editSeq {α : Type} [DecidableEq α] {xs ys : List α} {n : Nat}
    (h : EditSeq xs ys n) : lev xs ys ≤ n := by
  induction h with
  | nil => simp
  | keep a _ ih => rw [lev_cons_cons, if_pos rfl]; exact ih
  | subst a b _ ih =>
    rw [lev_cons_cons]
    by_cases hab : a = b
    · rw [if_pos hab]; omega
    · rw [if_neg hab]; omega
  | ins b h ih =>
    rename_i xs' ys' n'
    have hb := (lev_step_bounds (xs'.length + ys'.length) xs' ys' le_rfl).1 b
    omega
  | del a h ih =>
    rename_i xs' ys' n'
    have hb := (lev_step_bounds (xs'.length + ys'.length) xs' ys' le_rfl).2.2.1 a
    omega

/-- Unit-cost edit distance is invariant under reversing both sequences. -/
theorem lev_reverse {α : Type} [DecidableEq α] (xs ys : List α) :
    lev xs.reverse ys.reverse = lev xs ys := by
  refine le_antisymm (lev_le_of_editSeq ((editSeq_lev xs ys).reverse)) ?_
  have h := lev_le_of_editSeq ((editSeq_lev xs.reverse ys.reverse).reverse)
  simpa using h

theorem levenshtein_default_nil_left {α : Type} [DecidableEq α] (ys : List α) :
    levenshtein Levenshtein.defaultCost ([] : List α) ys = ys.length := by
  induction ys with
  | nil => simp [levenshtein_nil_nil]
  | cons y ys ih =>
    rw [levenshtein_nil_cons, ih]
    simp [Levenshtein.defaultCost]
    omega

theorem levenshtein_default_nil_right {α : Type} [DecidableEq α] (xs : List α) :
    levenshtein Levenshtein.defaultCost xs ([] : List α) = xs.length := by
  induction xs with
  | nil => simp [levenshtein_nil_nil]
  | cons x xs ih =>
    rw [levenshtein_cons_nil, ih]
    simp [Levenshtein.defaultCost]
    omega

/-- The reference `lev` agrees with Mathlib's unit-cost Levenshtein distance. -/
theorem lev_eq_levenshtein {α : Type} [DecidableEq α] :
    ∀ (xs ys : List α), lev xs ys = levenshtein Levenshtein.defaultCost xs ys
  | [], ys => by rw [lev_nil_left, levenshtein_default_nil_left]
  | x :: xs, [] => by rw [lev_nil_right, levenshtein_default_nil_right]
  | x :: xs, y :: ys => by
    rw [lev_cons_cons, levenshtein_cons_cons]
    have h1 := lev_eq_levenshtein xs ys
    have h2 := lev_eq_levenshtein (x :: xs) ys
    have h3 := lev_eq_levenshtein xs (y :: ys)
    have b1 := (lev_step_bounds (xs.length + ys.length) xs ys le_rfl).2.1 x
    have b2 := (lev_step_bounds (xs.length + ys.length) xs ys le_rfl).2.2.2 y
    rw [← h1, ← h2, ← h3]
    by_cases hxy : x = y
    · rw [if_pos hxy]
      simp only [Levenshtein.defaultCost, if_pos hxy]
      omega
    · rw [if_neg hxy]
      simp only [Levenshtein.defaultCost, if_neg hxy]
      omega
termination_by xs ys => xs.length + ys.length
decreasing_by all_goals simp_arith

/-! ## The matrix equals the reference distance on reversed prefixes -/

theorem editDP_zero_left {α : Type} [DecidableEq α] (xs ys : List α) (j : Nat) :
    editDP xs ys 0 j = j := rfl

theorem editDP_zero_right {α : Type} [DecidableEq α] (xs ys : List α) (i : Nat) :
    editDP xs ys i 0 = i := by
  cases i <;> rfl

theorem editDP_succ_succ {α : Type} [DecidableEq α] (xs ys : List α) (i j : Nat) :
    editDP xs ys (i + 1) (j + 1) =
      if xs.get? i = ys.get? j then editDP xs ys i j
      else
        min (editDP xs ys i j + 1)
          (min (editDP xs ys (i + 1) j + 1) (editDP xs ys i (j + 1) + 1)) := rfl

/-- The matrix entry `dp[i][j]` is the reference edit distance between the
reversed `i`-prefix of `xs` and the reversed `j`-prefix of `ys` (the
recurrence compares the *last* elements of the prefixes, i.e. the heads of
their reversals). -/
theorem editDP_eq_lev {α : Type} [DecidableEq α] (xs ys : List α) :
    ∀ i j, i ≤ xs.length → j ≤ ys.length →
      editDP xs ys i j = lev (xs.take i).reverse (ys.take j).reverse := by
  intro i
  induction i with
  | zero =>
    intro j hi hj
    simp [editDP_zero_left, Nat.min_eq_left hj]
  | succ i ihi =>
    intro j
    induction j with
    | zero =>
      intro hi hj
      rw [editDP_zero_right]
      simp [Nat.min_eq_left hi]
    | succ j ihj =>
      intro hi hj
      have hx : i < xs.length := by omega
      have hy : j < ys.length := by omega
      have hgx : xs.get? i = some (xs.get ⟨i, hx⟩) := List.get?_eq_get hx
      have hgy : ys.get? j = some (ys.get ⟨j, hy⟩) := List.get?_eq_get hy
      have hgx2 : xs[i]? = some (xs.get ⟨i, hx⟩) := by
        rw [← List.get?_eq_getElem?]
        exact hgx
      have hgy2 : ys[j]? = some (ys.get ⟨j, hy⟩) := by
        rw [← List.get?_eq_getElem?]
        exact hgy
      have htx : (xs.take (i + 1)).reverse = xs.get ⟨i, hx⟩ :: (xs.take i).reverse := by
        rw [List.take_succ, hgx2]
        simp
      have hty : (ys.take (j + 1)).reverse = ys.get ⟨j, hy⟩ :: (ys.take j).reverse := by
        rw [List.take_succ, hgy2]
        simp
      have e1 := ihi j (by omega) (by omega)
      have e2 := ihi (j + 1) (by omega) hj
      have e3 := ihj (by omega) (by omega)
      rw [editDP_succ_succ, htx, hty, lev_cons_cons, hgx, hgy]
      rw [htx] at e3
      rw [hty] at e2
      by_cases hxy : xs.get ⟨i, hx⟩ = ys.get ⟨j, hy⟩
      · rw [if_pos (by rw [hxy]), if_pos hxy]
        exact e1
      · rw [if_neg (by simpa using hxy), if_neg hxy]
        rw [e1, e2, e3]
        omega

theorem getD_mem_of_lt {α : Type} [Inhabited α] (l : List α) (n : Nat)
    (h : n < l.length) : l.getD n default ∈ l := by
  induction l generalizing n with
  | nil => simp at h
  | cons a l ih =>
    cases n with
    | zero => simp
    | succ n =>
      rw [List.getD_cons_succ]
      exact List.mem_cons_of_mem a (ih n (by simpa using h))

/-- The backtracking loop always succeeds within its fuel, emits exactly
`dp[i][j]` operations, and every owner value it mentions comes from one of
the two input lists. -/
theorem backtrack_spec {α : Type} [DecidableEq α] [Inhabited α] (xs ys : List α) :
    ∀ (f i j : Nat), i + j ≤ f → i ≤ xs.length → j ≤ ys.length →
      ∃ ops, backtrackAux xs ys f i j = some ops ∧
        ops.length = editDP xs ys i j ∧
        ∀ op ∈ ops, ∀ v ∈ op.ownerVals, v ∈ xs ∨ v ∈ ys := by
  intro f
  induction f with
  | zero =>
    intro i j hf hi hj
    have hij : i = 0 ∧ j = 0 := by omega
    obtain ⟨rfl, rfl⟩ := hij
    refine ⟨[], ?_, ?_, ?_⟩
    · simp [backtrackAux]
    · simp [editDP_zero_left]
    · simp
  | succ f ihf =>
    intro i j hf hi hj
    by_cases h00 : i = 0 ∧ j = 0
    · obtain ⟨rfl, rfl⟩ := h00
      refine ⟨[], ?_, ?_, ?_⟩
      · simp [backtrackAux]
      · simp [editDP_zero_left]
      · simp
    · by_cases hc1 : 0 < i ∧ 0 < j ∧ xs.get? (i - 1) = ys.get? (j - 1)
      · obtain ⟨hi0, hj0, heq⟩ := hc1
        obtain ⟨i', rfl⟩ : ∃ k, i = k + 1 := ⟨i - 1, by omega⟩
        obtain ⟨j', rfl⟩ : ∃ k, j = k + 1 := ⟨j - 1, by omega⟩
        simp only [Nat.add_sub_cancel] at heq
        obtain ⟨ops, hops, hlen, hmem⟩ := ihf i' j' (by omega) (by omega) (by omega)
        refine ⟨ops, ?_, ?_, hmem⟩
        · simp only [backtrackAux, Nat.add_sub_cancel]
          rw [if_neg h00, if_pos ⟨Nat.succ_pos i', Nat.succ_pos j', heq⟩]
          exact hops
        · rw [hlen, editDP_succ_succ, if_pos heq]
      · by_cases hc2 : 0 < i ∧ 0 < j ∧ editDP xs ys i j = editDP xs ys (i - 1) (j - 1) + 1
        · obtain ⟨hi0, hj0, hdp⟩ := hc2
          obtain ⟨i', rfl⟩ : ∃ k, i = k + 1 := ⟨i - 1, by omega⟩
          obtain ⟨j', rfl⟩ : ∃ k, j = k + 1 := ⟨j - 1, by omega⟩
          simp only [Nat.add_sub_cancel] at hdp hc1
          obtain ⟨ops, hops, hlen, hmem⟩ := ihf i' j' (by omega) (by omega) (by omega)
          have hx : i' < xs.length := by omega
          have hy : j' < ys.length := by omega
          refine ⟨ops ++ [.swap (xs.getD i' default) (ys.getD j' default)], ?_, ?_, ?_⟩
          · simp only [backtrackAux, Nat.add_sub_cancel]
            rw [if_neg h00, if_neg hc1,
              if_pos ⟨Nat.succ_pos i', Nat.succ_pos j', hdp⟩, hops]
            rfl
          · simp only [List.length_append, List.length_singleton, hlen, hdp]
          · intro op hop v hv
            rcases List.mem_append.mp hop with h | h
            · exact hmem op h v hv
            · simp only [List.mem_singleton] at h
              subst h
              simp only [EditOp.ownerVals, List.mem_cons, List.mem_singleton,
                List.not_mem_nil, or_false] at hv
              rcases hv with rfl | rfl
              · exact Or.inl (getD_mem_of_lt xs i' hx)
              · exact Or.inr (getD_mem_of_lt ys j' hy)
        · by_cases hc3 : 0 < j ∧ editDP xs ys i j = editDP xs ys i (j - 1) + 1
          · obtain ⟨hj0, hdp⟩ := hc3
            obtain ⟨j', rfl⟩ : ∃ k, j = k + 1 := ⟨j - 1, by omega⟩
            simp only [Nat.add_sub_cancel] at hdp hc1 hc2
            obtain ⟨ops, hops, hlen, hmem⟩ := ihf i j' (by omega) hi (by omega)
            have hy : j' < ys.length := by omega
            refine ⟨ops ++ [.add (ys.getD j' default)], ?_, ?_, ?_⟩
            · simp only [backtrackAux, Nat.add_sub_cancel]
              rw [if_neg h00, if_neg hc1, if_neg hc2,
                if_pos ⟨Nat.succ_pos j', hdp⟩, hops]
              rfl
            · simp only [List.length_append, List.length_singleton, hlen, hdp]
            · intro op hop v hv
              rcases List.mem_append.mp hop with h | h
              · exact hmem op h v hv
              · simp only [List.mem_singleton] at h
                subst h
                simp only [EditOp.ownerVals, List.mem_singleton] at hv
                subst hv
                exact Or.inr (getD_mem_of_lt ys j' hy)
          · by_cases hc4 : 0 < i ∧ editDP xs ys i j = editDP xs ys (i - 1) j + 1
            · obtain ⟨hi0, hdp⟩ := hc4
              obtain ⟨i', rfl⟩ : ∃ k, i = k + 1 := ⟨i - 1, by omega⟩
              simp only [Nat.add_sub_cancel] at hdp hc1 hc2 hc3
              obtain ⟨ops, hops, hlen, hmem⟩ := ihf i' j (by omega) (by omega) hj
              have hx : i' < xs.length := by omega
              refine ⟨ops ++ [.remove (xs.getD i' default)], ?_, ?_, ?_⟩
              · simp only [backtrackAux, Nat.add_sub_cancel]
                rw [if_neg h00, if_neg hc1, if_neg hc2, if_neg hc3,
                  if_pos ⟨Nat.succ_pos i', hdp⟩, hops]
                rfl
              · simp only [List.length_append, List.length_singleton, hlen, hdp]
              · intro op hop v hv
                rcases List.mem_append.mp hop with h | h
                · exact hmem op h v hv
                · simp only [List.mem_singleton] at h
                  subst h
                  simp only [EditOp.ownerVals, List.mem_singleton] at hv
                  subst hv
                  exact Or.inl (getD_mem_of_lt xs i' hx)
            · exfalso
              rcases Nat.eq_zero_or_pos i with hi0 | hi0
              · subst hi0
                have hj0 : 0 < j := by omega
                obtain ⟨j', rfl⟩ : ∃ k, j = k + 1 := ⟨j - 1, by omega⟩
                exact hc3 ⟨Nat.succ_pos j', by
                  rw [editDP_zero_left, editDP_zero_left]
                  omega⟩
              · rcases Nat.eq_zero_or_pos j with hj0 | hj0
                · subst hj0
                  obtain ⟨i', rfl⟩ : ∃ k, i = k + 1 := ⟨i - 1, by omega⟩
                  exact hc4 ⟨hi0, by
                    rw [editDP_zero_right, editDP_zero_right]
                    omega⟩
                · obtain ⟨i', rfl⟩ : ∃ k, i = k + 1 := ⟨i - 1, by omega⟩
                  obtain ⟨j', rfl⟩ : ∃ k, j = k + 1 := ⟨j - 1, by omega⟩
                  by_cases heq : xs.get? i' = ys.get? j'
                  · exact hc1 ⟨Nat.succ_pos i', Nat.succ_pos j', by
                      simpa using heq⟩
                  · have hd := editDP_succ_succ xs ys i' j'
                    rw [if_neg heq] at hd
                    have h2 : ¬editDP xs ys (i' + 1) (j' + 1) = editDP xs ys i' j' + 1 := by
                      intro h
                      exact hc2 ⟨Nat.succ_pos i', Nat.succ_pos j', by simpa using h⟩
                    have h3 : ¬editDP xs ys (i' + 1) (j' + 1) = editDP xs ys (i' + 1) j' + 1 := by
                      intro h
                      exact hc3 ⟨Nat.succ_pos j', by simpa using h⟩
                    have h4 : ¬editDP xs ys (i' + 1) (j' + 1) = editDP xs ys i' (j' + 1) + 1 := by
                      intro h
                      exact hc4 ⟨Nat.succ_pos i', by simpa using h⟩
                    omega

/-- `calculateEditOperations` always returns an operation list; its length is
the unit-cost edit distance of its two arguments, and every owner value in it
comes from one of the arguments. -/
theorem calculateEditOperations_spec {α : Type} [DecidableEq α] [Inhabited α]
    (xs ys : List α) :
    ∃ ops, calculateEditOperations xs ys = some ops ∧
      ops.length = lev xs ys ∧
      ∀ op ∈ ops, ∀ v ∈ op.ownerVals, v ∈ xs ∨ v ∈ ys := by
  obtain ⟨ops, hops, hlen, hmem⟩ :=
    backtrack_spec xs ys (xs.length + ys.length) xs.length ys.length le_rfl le_rfl le_rfl
  refine ⟨ops, hops, ?_, hmem⟩
  rw [hlen, editDP_eq_lev xs ys xs.length ys.length le_rfl le_rfl]
  simp [lev_reverse]

/-! ## The processing loop in terms of the replay semantics (C6) -/

theorem processOps_fst (safeAddress : Addr) (threshold : Int) (sent : OVal) :
    ∀ (ops : List (EditOp OVal)) (m : LL),
      (processOps safeAddress threshold sent m ops).1 = applyOps sent m ops := by
  intro ops
  induction ops with
  | nil => intro m; rfl
  | cons op rest ih =>
    intro m
    show (processOps safeAddress threshold sent (applyOp sent m op) rest).1 = _
    rw [ih]
    rfl

theorem processOps_length (safeAddress : Addr) (threshold : Int) (sent : OVal) :
    ∀ (ops : List (EditOp OVal)) (m : LL),
      (processOps safeAddress threshold sent m ops).2.length = ops.length := by
  intro ops
  induction ops with
  | nil => intro m; rfl
  | cons op rest ih =>
    intro m
    show (mkTxForOp safeAddress threshold m op ::
      (processOps safeAddress threshold sent (applyOp sent m op) rest).2).length = _
    rw [List.length_cons, ih]
    rfl

/-- The `k`-th emitted transaction is built from the linked list obtained by
replaying the first `k` operations against the starting list: the loop
mutates the simulator immediately after emitting each transaction, so the
state used for transaction `k` is exactly `applyOps` of the `k`-prefix. -/
theorem processOps_get (safeAddress : Addr) (threshold : Int) (sent : OVal) :
    ∀ (ops : List (EditOp OVal)) (m : LL) (k : Nat), k < ops.length →
      (processOps safeAddress threshold sent m ops).2.get? k =
        some (mkTxForOp safeAddress threshold (applyOps sent m (ops.take k))
          ((ops.get? k).getD (.add none))) := by
  intro ops
  induction ops with
  | nil =>
    intro m k hk
    simp at hk
  | cons op rest ih =>
    intro m k hk
    cases k with
    | zero =>
      show (mkTxForOp safeAddress threshold m op ::
        (processOps safeAddress threshold sent (applyOp sent m op) rest).2).get? 0 = _
      simp [applyOps]
    | succ k =>
      show (mkTxForOp safeAddress threshold m op ::
        (processOps safeAddress threshold sent (applyOp sent m op) rest).2).get? (k + 1) = _
      rw [List.get?_cons_succ, ih (applyOp sent m op) k (by simpa using hk)]
      simp [applyOps, List.take_succ_cons, List.get?_cons_succ, List.foldl_cons]

/-- The `prevOwner` argument of a swap transaction is the predecessor in the
list the transaction was built from. -/
theorem mkTxForOp_swap_prevOwner (safeAddress : Addr) (threshold : Int) (m : LL)
    (old new : OVal) :
    (mkTxForOp safeAddress threshold m (.swap old new)).prevOwnerArg =
      some (getPrevOwner old m) := rfl

/-- The `prevOwner` argument of a remove transaction is the predecessor in the
list the transaction was built from. -/
theorem mkTxForOp_remove_prevOwner (safeAddress : Addr) (threshold : Int) (m : LL)
    (o : OVal) :
    (mkTxForOp safeAddress threshold m (.remove o)).prevOwnerArg =
      some (getPrevOwner o m) := rfl

/-! ## Provenance of aligned owners (C4, C10) -/

theorem alignPass_spec :
    ∀ (cs pool : List Addr),
      (∀ v ∈ (alignPass cs pool).1, ∀ a, v = some a → a ∈ pool) ∧
      (∀ x ∈ (alignPass cs pool).2, x ∈ pool) := by
  intro cs
  induction cs with
  | nil =>
    intro pool
    refine ⟨?_, ?_⟩
    · intro v hv
      simp [alignPass] at hv
    · intro x hx
      simpa [alignPass] using hx
  | cons c cs ih =>
    intro pool
    by_cases hc : c ∈ pool
    · refine ⟨?_, ?_⟩
      · intro v hv a hva
        simp only [alignPass, if_pos hc, List.mem_cons] at hv
        rcases hv with rfl | hv
        · cases hva
          exact hc
        · exact List.mem_of_mem_erase ((ih (pool.erase c)).1 v hv a hva)
      · intro x hx
        simp only [alignPass, if_pos hc] at hx
        exact List.mem_of_mem_erase ((ih (pool.erase c)).2 x hx)
    · refine ⟨?_, ?_⟩
      · intro v hv a hva
        simp only [alignPass, if_neg hc, List.mem_cons] at hv
        rcases hv with rfl | hv
        · cases hva
        · exact (ih pool).1 v hv a hva
      · intro x hx
        simp only [alignPass, if_neg hc] at hx
        exact (ih pool).2 x hx

theorem fillHoles_spec :
    ∀ (r : List OVal) (pool : List Addr),
      (∀ v ∈ (fillHoles r pool).1, ∀ a, v = some a → some a ∈ r ∨ a ∈ pool) ∧
      (∀ x ∈ (fillHoles r pool).2, x ∈ pool) := by
  intro r
  induction r with
  | nil =>
    intro pool
    refine ⟨?_, ?_⟩
    · intro v hv
      simp [fillHoles] at hv
    · intro x hx
      simpa [fillHoles] using hx
  | cons hd rest ih =>
    intro pool
    cases hd with
    | some a0 =>
      refine ⟨?_, ?_⟩
      · intro v hv a hva
        simp only [fillHoles, List.mem_cons] at hv
        rcases hv with rfl | hv
        · exact Or.inl (by simp [hva])
        · rcases (ih pool).1 v hv a hva with h | h
          · exact Or.inl (List.mem_cons_of_mem _ h)
          · exact Or.inr h
      · intro x hx
        simp only [fillHoles] at hx
        exact (ih pool).2 x hx
    | none =>
      cases pool with
      | nil =>
        refine ⟨?_, ?_⟩
        · intro v hv a hva
          simp only [fillHoles, List.mem_cons] at hv
          rcases hv with rfl | hv
          · cases hva
          · rcases (ih []).1 v hv a hva with h | h
            · exact Or.inl (List.mem_cons_of_mem _ h)
            · simp at h
        · intro x hx
          simp only [fillHoles] at hx
          exact (ih []).2 x hx
      | cons q qs =>
        refine ⟨?_, ?_⟩
        · intro v hv a hva
          simp only [fillHoles, List.mem_cons] at hv
          rcases hv with rfl | hv
          · cases hva
            exact Or.inr (List.mem_cons_self q qs)
          · rcases (ih qs).1 v hv a hva with h | h
            · exact Or.inl (List.mem_cons_of_mem _ h)
            · exact Or.inr (List.mem_cons_of_mem _ h)
        · intro x hx
          simp only [fillHoles] at hx
          exact List.mem_cons_of_mem _ ((ih qs).2 x hx)

/-- Every address in the alignment output comes from the desired owner list. -/
theorem reorderNewOwners_mem (cur new : List Addr) :
    ∀ v ∈ reorderNewOwners cur new, ∀ a, v = some a → a ∈ new := by
  intro v hv a hva
  unfold reorderNewOwners at hv
  rcases List.mem_append.mp hv with h | h
  · rcases (fillHoles_spec (alignPass cur new).1 (alignPass cur new).2).1 v h a hva with
      h2 | h2
    · exact (alignPass_spec cur new).1 (some a) h2 a rfl
    · exact (alignPass_spec cur new).2 a h2
  · subst hva
    obtain ⟨b, hb, hba⟩ := List.mem_map.mp h
    have hba2 : b = a := by simpa using hba
    subst hba2
    exact (alignPass_spec cur new).2 b
      ((fillHoles_spec (alignPass cur new).1 (alignPass cur new).2).2 b hb)

/-! ## Normalization is preserved through the pipeline (C10) -/

theorem OValNorm_none : OValNorm none := by
  intro a h
  cases h

theorem objSet_norm {m : LL} {k v : OVal} (hm : LLNorm m) (hk : OValNorm k)
    (hv : OValNorm v) : LLNorm (objSet m k v) := by
  intro p hp
  unfold objSet at hp
  by_cases hmem : m.any (fun p => p.1 = k)
  · rw [if_pos hmem] at hp
    obtain ⟨q, hq, hqp⟩ := List.mem_map.mp hp
    by_cases hqk : q.1 = k
    · rw [if_pos hqk] at hqp
      subst hqp
      exact ⟨hk, hv⟩
    · rw [if_neg hqk] at hqp
      subst hqp
      exact hm q hq
  · rw [if_neg hmem] at hp
    rcases List.mem_append.mp hp with h | h
    · exact hm p h
    · simp only [List.mem_singleton] at h
      subst h
      exact ⟨hk, hv⟩

theorem objDelete_norm {m : LL} {k : OVal} (hm : LLNorm m) : LLNorm (objDelete m k) := by
  intro p hp
  exact hm p (List.mem_of_mem_filter hp)

theorem objGet_norm {m : LL} {k : OVal} {v : OVal} (hm : LLNorm m)
    (h : objGet m k = some v) : OValNorm v := by
  unfold objGet at h
  cases hfind : m.find? (fun p => p.1 = k) with
  | none => rw [hfind] at h; cases h
  | some p =>
    rw [hfind] at h
    obtain rfl : p.2 = v := by simpa using h
    exact (hm p (List.mem_of_find?_eq_some hfind)).2

theorem getPrevOwner_norm {m : LL} {o : OVal} (hm : LLNorm m) :
    OValNorm (getPrevOwner o m) := by
  unfold getPrevOwner
  cases hfind : m.find? (fun p => p.2 = o) with
  | none => exact OValNorm_none
  | some p =>
    simpa using (hm p (List.mem_of_find?_eq_some hfind)).1

theorem getLastOwnerAux_norm {m : LL} {sent : OVal} (hm : LLNorm m) :
    ∀ (f : Nat) (cur : OVal), OValNorm cur → OValNorm (getLastOwnerAux m sent f cur) := by
  intro f
  induction f with
  | zero => intro cur hcur; exact hcur
  | succ f ih =>
    intro cur hcur
    show OValNorm (match objGet m cur with
      | none => cur
      | some v => if v = sent ∨ v = none then cur else getLastOwnerAux m sent f v)
    cases hg : objGet m cur with
    | none => exact hcur
    | some v =>
      show OValNorm (if v = sent ∨ v = none then cur else getLastOwnerAux m sent f v)
      by_cases hv : v = sent ∨ v = none
      · rw [if_pos hv]
        exact hcur
      · rw [if_neg hv]
        exact ih v (objGet_norm hm hg)

theorem getLastOwner_norm {m : LL} {sent : OVal} (hm : LLNorm m) (hs : OValNorm sent) :
    OValNorm (getLastOwner m sent) :=
  getLastOwnerAux_norm hm m.length sent hs

theorem updateOwnerLinkedList_norm {m : LL} {oldOwner newOwner : OVal}
    (hm : LLNorm m) (hnew : OValNorm newOwner) :
    LLNorm (updateOwnerLinkedList oldOwner newOwner m) := by
  unfold updateOwnerLinkedList
  have h1 : LLNorm (objSet m (getPrevOwner oldOwner m) newOwner) :=
    objSet_norm hm (getPrevOwner_norm hm) hnew
  have h2 : OValNorm ((objGet (objSet m (getPrevOwner oldOwner m) newOwner) oldOwner).getD none) := by
    cases hg : objGet (objSet m (getPrevOwner oldOwner m) newOwner) oldOwner with
    | none => exact OValNorm_none
    | some v => simpa using objGet_norm h1 hg
  exact objDelete_norm (objSet_norm h1 hnew h2)

theorem applyOp_norm {m : LL} {sent : OVal} {op : EditOp OVal}
    (hm : LLNorm m) (hs : OValNorm sent)
    (hop : ∀ v ∈ op.ownerVals, OValNorm v) : LLNorm (applyOp sent m op) := by
  cases op with
  | remove o =>
    have ho : OValNorm o := hop o (by simp [EditOp.ownerVals])
    have h2 : OValNorm ((objGet m o).getD none) := by
      cases hg : objGet m o with
      | none => exact OValNorm_none
      | some v => simpa using objGet_norm hm hg
    exact objDelete_norm (objSet_norm hm (getPrevOwner_norm hm) h2)
  | add o =>
    have ho : OValNorm o := hop o (by simp [EditOp.ownerVals])
    exact objSet_norm (objSet_norm hm (getLastOwner_norm hm hs) ho) ho hs
  | swap old new =>
    exact updateOwnerLinkedList_norm hm (hop new (by simp [EditOp.ownerVals]))

theorem applyOps_norm {sent : OVal} (hs : OValNorm sent) :
    ∀ (ops : List (EditOp OVal)) (m : LL), LLNorm m →
      (∀ op ∈ ops, ∀ v ∈ op.ownerVals, OValNorm v) →
      LLNorm (applyOps sent m ops) := by
  intro ops
  induction ops with
  | nil => intro m hm _; exact hm
  | cons op rest ih =>
    intro m hm hops
    rw [applyOps, List.foldl_cons]
    exact ih (applyOp sent m op)
      (applyOp_norm hm hs (hops op (List.mem_cons_self op rest)))
      (fun o ho => hops o (List.mem_cons_of_mem op ho))

theorem addPairs_norm :
    ∀ (l : List OVal) (m : LL), LLNorm m → (∀ v ∈ l, OValNorm v) →
      LLNorm (addPairs m l) := by
  intro l
  induction l with
  | nil => intro m hm _; exact hm
  | cons a rest ih =>
    intro m hm hl
    cases rest with
    | nil => exact hm
    | cons b rest2 =>
      show LLNorm (addPairs (objSet m a b) (b :: rest2))
      exact ih (objSet m a b)
        (objSet_norm hm (hl a (by simp)) (hl b (by simp)))
        (fun v hv => hl v (List.mem_cons_of_mem a hv))

theorem buildOwnerLinkedList_norm {cur : List OVal} {sent : OVal}
    (hcur : ∀ v ∈ cur, OValNorm v) (hs : OValNorm sent) :
    LLNorm (buildOwnerLinkedList cur sent) := by
  unfold buildOwnerLinkedList
  have hhead : OValNorm (cur.headD sent) := by
    cases cur with
    | nil => exact hs
    | cons a l => exact hcur a (by simp)
  have h0 : LLNorm (objSet [] sent (cur.headD sent)) :=
    objSet_norm (by intro p hp; cases hp) hs hhead
  have h1 : LLNorm (addPairs (objSet [] sent (cur.headD sent)) cur) :=
    addPairs_norm cur _ h0 hcur
  cases hlast : cur.getLast? with
  | none => exact h1
  | some last =>
    have hmem : last ∈ cur := by
      obtain ⟨hne, heq⟩ :=
        List.mem_getLast?_eq_getLast (Option.mem_def.mpr hlast)
      rw [heq]
      exact List.getLast_mem hne
    exact objSet_norm h1 (hcur last hmem) hs

theorem ownerArgVals_swap (s : Addr) (old new : OVal) (m : LL) :
    (createSwapOwnerTransaction s old new m).ownerArgVals =
      [getPrevOwner old m, old, new] := by rfl

theorem ownerArgVals_add (s : Addr) (o : OVal) (t : Int) :
    (createAddOwnerTransaction s o t).ownerArgVals = [o] := by rfl

theorem ownerArgVals_remove (s : Addr) (o : OVal) (t : Int) (m : LL) :
    (createRemoveOwnerTransaction s o t m).ownerArgVals =
      [getPrevOwner o m, o] := by rfl

theorem ownerArgVals_changeThreshold (s : Addr) (t : Int) :
    (createChangeThresholdTransaction s t).ownerArgVals = [] := by rfl

/-- Every transaction the processing loop emits targets the safe address and
uses only normalized owner values in its address-typed arguments, provided the
starting linked list, the sentinel, and the operation owners are normalized. -/
theorem processOps_norm (safeAddress : Addr) (threshold : Int) {sent : OVal}
    (hs : OValNorm sent) :
    ∀ (ops : List (EditOp OVal)) (m : LL), LLNorm m →
      (∀ op ∈ ops, ∀ v ∈ op.ownerVals, OValNorm v) →
      ∀ tx ∈ (processOps safeAddress threshold sent m ops).2,
        tx.toAddress = safeAddress ∧ ∀ v ∈ tx.ownerArgVals, OValNorm v := by
  intro ops
  induction ops with
  | nil =>
    intro m _ _ tx htx
    cases htx
  | cons op rest ih =>
    intro m hm hops tx htx
    have hop : ∀ v ∈ op.ownerVals, OValNorm v := hops op (List.mem_cons_self op rest)
    rcases List.mem_cons.mp htx with rfl | htx2
    · cases op with
      | remove o =>
        refine ⟨rfl, ?_⟩
        intro v hv
        change v ∈ (createRemoveOwnerTransaction safeAddress o threshold m).ownerArgVals at hv
        rw [ownerArgVals_remove] at hv
        simp only [List.mem_cons, List.not_mem_nil, or_false] at hv
        rcases hv with rfl | rfl
        · exact getPrevOwner_norm hm
        · exact hop _ (by simp [EditOp.ownerVals])
      | add o =>
        refine ⟨rfl, ?_⟩
        intro v hv
        change v ∈ (createAddOwnerTransaction safeAddress o threshold).ownerArgVals at hv
        rw [ownerArgVals_add] at hv
        simp only [List.mem_singleton] at hv
        subst hv
        exact hop _ (by simp [EditOp.ownerVals])
      | swap old new =>
        refine ⟨rfl, ?_⟩
        intro v hv
        change v ∈ (createSwapOwnerTransaction safeAddress old new m).ownerArgVals at hv
        rw [ownerArgVals_swap] at hv
        simp only [List.mem_cons, List.not_mem_nil, or_false] at hv
        rcases hv with rfl | rfl | rfl
        · exact getPrevOwner_norm hm
        · exact hop _ (by simp [EditOp.ownerVals])
        · exact hop _ (by simp [EditOp.ownerVals])
    · exact ih (applyOp sent m op) (applyOp_norm hm hs hop)
        (fun o2 ho2 => hops o2 (List.mem_cons_of_mem op ho2)) tx htx2

/-! ## What the checksum actually hashes (C8)

The replacer array drops every key that is not in the top-level key list, at
every nesting level; `meta` and each transaction therefore serialize as the
empty object. -/

/-- Any transaction object serializes to the empty object: none of its keys
(`to`, `value`, `data`, `contractMethod`, `contractInputsValues`) occurs in
the property list. -/
theorem stringifyWith_tx (f : Nat) (hf : f ≠ 0) (tx : Tx) :
    stringifyWith checksumKeyList f (txToJVal tx) = "\x7b\x7d" := by
  obtain ⟨g, rfl⟩ : ∃ g, f = g + 1 := ⟨f - 1, by omega⟩
  simp [stringifyWith, txToJVal, checksumKeyList, assembleObj, joinComma, List.find?]

/-- The checksum input is a function of the version, chain id, timestamp and
transaction count alone: two batches agreeing on those four values — however
much their `meta` or transaction contents differ — hash identically.  (The
replacer array drops every nested key, so `meta` and each transaction
serialize as `\x7b\x7d`.) -/
theorem serializeForChecksum_depends_only (b1 b2 : Batch)
    (h1 : b1.version = b2.version) (h2 : b1.chainId = b2.chainId)
    (h3 : b1.createdAt = b2.createdAt)
    (h4 : b1.transactions.length = b2.transactions.length) :
    serializeForChecksum b1 = serializeForChecksum b2 := by
  have hmap : ∀ l : List Tx,
      List.map (stringifyWith checksumKeyList 14 ∘ txToJVal) l =
        List.replicate l.length "\x7b\x7d" := by
    intro l
    induction l with
    | nil => rfl
    | cons t ts ih =>
      rw [List.map_cons, List.length_cons, List.replicate_succ, ih]
      rw [show (stringifyWith checksumKeyList 14 ∘ txToJVal) t =
        stringifyWith checksumKeyList 14 (txToJVal t) from rfl]
      rw [stringifyWith_tx 14 (by omega) t]
  unfold serializeForChecksum blankChecksum batchToJVal
  simp only [stringifyWith, List.map_map, List.map_cons, List.map_nil]
  rw [hmap b1.transactions, hmap b2.transactions, h4]
  simp only [checksumKeyList, assembleObj, List.filterMap, List.find?]
  simp [h1, h2, h3, joinComma, jquote, stringifyWith]

/-! ## Address normalization facts (C10) -/

theorem lowerHexChar_fix (c : Char) (h1 : c ≠ 'A') (h2 : c ≠ 'B') (h3 : c ≠ 'C')
    (h4 : c ≠ 'D') (h5 : c ≠ 'E') (h6 : c ≠ 'F') : lowerHexChar c = c := by
  unfold lowerHexChar
  rw [if_neg h1, if_neg h2, if_neg h3, if_neg h4, if_neg h5, if_neg h6]

theorem lowerHexChar_idem (c : Char) : lowerHexChar (lowerHexChar c) = lowerHexChar c := by
  by_cases h1 : c = 'A'
  · subst h1; decide
  by_cases h2 : c = 'B'
  · subst h2; decide
  by_cases h3 : c = 'C'
  · subst h3; decide
  by_cases h4 : c = 'D'
  · subst h4; decide
  by_cases h5 : c = 'E'
  · subst h5; decide
  by_cases h6 : c = 'F'
  · subst h6; decide
  rw [lowerHexChar_fix c h1 h2 h3 h4 h5 h6]
  exact lowerHexChar_fix c h1 h2 h3 h4 h5 h6

theorem lowerHexStr_idem (s : String) : lowerHexStr (lowerHexStr s) = lowerHexStr s := by
  unfold lowerHexStr
  simp only [String.data]
  rw [List.map_map]
  congr 1
  exact List.map_congr_left (fun c _ => lowerHexChar_idem c)

theorem getAddressModel_normalized {s : String} {a : Addr}
    (h : getAddressModel s = .ok a) : isNormalized a := by
  unfold getAddressModel at h
  split_ifs at h with hcond
  obtain rfl : lowerHexStr s = a := by
    simpa using h
  exact lowerHexStr_idem s

theorem validateNewOwners_ok_normalized :
    ∀ {l : List String} {vs : List Addr}, validateNewOwners l = .ok vs →
      ∀ a ∈ vs, isNormalized a := by
  intro l
  induction l with
  | nil =>
    intro vs h a ha
    obtain rfl : ([] : List Addr) = vs := by simpa [validateNewOwners] using h
    cases ha
  | cons s rest ih =>
    intro vs h a ha
    unfold validateNewOwners at h
    cases hg : getAddressModel (trimString s) with
    | error e => rw [hg] at h; cases h
    | ok a0 =>
      rw [hg] at h
      cases hr : validateNewOwners rest with
      | error e => rw [hr] at h; cases h
      | ok as =>
        rw [hr] at h
        obtain rfl : a0 :: as = vs := by simpa using h
        rcases List.mem_cons.mp ha with rfl | ha2
        · exact getAddressModel_normalized hg
        · exact ih hr a ha2

theorem validateNewOwners_error_of_invalid :
    ∀ {l : List String} {s : String}, s ∈ l →
      (∀ a, getAddressModel (trimString s) ≠ .ok a) →
      ∃ e, validateNewOwners l = .error e := by
  intro l
  induction l with
  | nil =>
    intro s hs
    cases hs
  | cons t rest ih =>
    intro s hs hbad
    rcases List.mem_cons.mp hs with rfl | hs2
    · cases hg : getAddressModel (trimString s) with
      | error e => exact ⟨"Invalid Ethereum address: " ++ s, by simp [validateNewOwners, hg]⟩
      | ok a => exact absurd hg (hbad a)
    · cases hg : getAddressModel (trimString t) with
      | error e => exact ⟨"Invalid Ethereum address: " ++ t, by simp [validateNewOwners, hg]⟩
      | ok a =>
        obtain ⟨e, he⟩ := ih hs2 hbad
        exact ⟨e, by simp [validateNewOwners, hg, he]⟩

theorem sentinel_normalized : isNormalized SENTINEL_OWNERS := by
  show lowerHexStr SENTINEL_OWNERS = SENTINEL_OWNERS
  decide

/-- Address provenance for the whole post-fetch pipeline: if the safe address,
the fetched current owners, and the validated new owners are all in
checksum-normalized (canonical) form, then every address value in the output
batch — transaction targets, owner-address arguments, and
`createdFromSafeAddress` — is in canonical form as well. -/
theorem generateBatch_norm {safe : Addr} {chainId : String} {createdAt : Nat}
    {cur : List Addr} {curThr : Int} {vnew : List Addr} {nthr : Option Int} {b : Batch}
    (hsafe : isNormalized safe)
    (hcur : ∀ a ∈ cur, isNormalized a)
    (hnew : ∀ a ∈ vnew, isNormalized a)
    (hok : generateBatch safe chainId createdAt cur curThr vnew nthr = .ok b) :
    ∀ v ∈ batchAddressVals b, OValNorm v := by
  have hsent : OValNorm (some SENTINEL_OWNERS) := by
    intro a ha
    obtain rfl : SENTINEL_OWNERS = a := by simpa using ha
    exact sentinel_normalized
  have hcurv : ∀ v ∈ cur.map some, OValNorm v := by
    intro v hv a hva
    subst hva
    obtain ⟨a2, ha2, ha2e⟩ := List.mem_map.mp hv
    obtain rfl : a2 = a := by simpa using ha2e
    exact hcur a2 ha2
  have main : ∀ txs : List Tx,
      (∀ tx ∈ txs, tx.toAddress = safe ∧ ∀ v ∈ tx.ownerArgVals, OValNorm v) →
      ∀ v ∈ batchAddressVals
        { version := "1.0", chainId := chainId, createdAt := createdAt,
          meta := { name := "Transactions Batch", description := "",
                    txBuilderVersion := "1.0.0", createdFromSafeAddress := safe,
                    createdFromOwnerAddress := "", checksum := "" },
          transactions := txs }, OValNorm v := by
    intro txs htxs v hv
    unfold batchAddressVals at hv
    simp only [List.mem_append, List.mem_flatMap, List.mem_singleton] at hv
    rcases hv with ⟨tx, htx, hvtx⟩ | rfl
    · obtain ⟨hto, hargs⟩ := htxs tx htx
      rcases List.mem_cons.mp hvtx with rfl | hv2
      · intro a hva
        obtain rfl : tx.toAddress = a := by simpa using hva
        rw [hto]
        exact hsafe
      · exact hargs v hv2
    · intro a hva
      obtain rfl : safe = a := by simpa using hva
      exact hsafe
  obtain ⟨ops, hcalc, _, hopmem⟩ :=
    calculateEditOperations_spec (cur.map some) (reorderNewOwners cur vnew)
  unfold generateBatch at hok
  simp only [hcalc] at hok
  split at hok
  · cases hok
  · have hops : ∀ op ∈ ops, ∀ v ∈ op.ownerVals, OValNorm v := by
      intro op hop v hv a hva
      rcases hopmem op hop v hv with h | h
      · exact hcurv v h a hva
      · subst hva
        exact hnew a (reorderNewOwners_mem cur vnew (some a) h a rfl)
    have hm0 : LLNorm (buildOwnerLinkedList (cur.map some) (some SENTINEL_OWNERS)) :=
      buildOwnerLinkedList_norm hcurv hsent
    have hproc := processOps_norm safe (nthr.getD curThr) hsent ops _ hm0 hops
    split at hok
    · cases hok
      refine main _ ?_
      intro tx htx
      rcases List.mem_append.mp htx with h | h
      · exact hproc tx h
      · simp only [List.mem_singleton] at h
        subst h
        refine ⟨rfl, ?_⟩
        rw [ownerArgVals_changeThreshold]
        intro v hv
        cases hv
    · cases hok
      exact main _ hproc

/-! # Claim theorems -/

/-- C1 (code bug): for the duplicate-free inputs current = [A, B], desired = \x7bA\x7d,
the pipeline's alignment leaves a `null` placeholder, the edit script emitted
by `generateTransactions` is a single `swap(B → null)` (the emitted batch is a
`swapOwner` whose `newOwner` is `null`), and replaying the emitted operations
in order against the original owner set (swap replaces old with new, remove
deletes, add inserts) yields \x7bA, null\x7d — the `null` value is left in the set,
so the result is not the desired owner set \x7bA\x7d and B is not removed by a
`remove` operation as the claim requires. -/
theorem c1_shrink_replay_bug :
    calculateEditOperations (["A", "B"].map some) (reorderNewOwners ["A", "B"] ["A"]) =
      some [.swap (some "B") none] ∧
    replayOps (["A", "B"].map some) [.swap (some "B") none] = [none, some "A"] ∧
    none ∈ replayOps (["A", "B"].map some) [.swap (some "B") none] ∧
    none ∉ ["A"].map some ∧
    (generateBatch "S" "1" 0 ["A", "B"] 1 ["A"] none).map Batch.transactions =
      .ok [createSwapOwnerTransaction "S" (some "B") none
        (buildOwnerLinkedList (["A", "B"].map some) (some SENTINEL_OWNERS))] := by
  decide

/-- C2 (code bug): for current = [A, B], desired = \x7bA, B\x7d and a threshold change
from 1 to 2, the operation list is empty, and because the code only appends a
`changeThreshold` transaction when at least one swap exists
(`!hasAddOrRemove && operations.some(op => op.type === 'swap')`), the emitted
batch is empty: the threshold change is silently dropped instead of producing
the single `changeThreshold(2)` transaction the claim requires. -/
theorem c2_threshold_only_change_dropped :
    (generateBatch "S" "1" 0 ["A", "B"] 1 ["A", "B"] (some 2)).map Batch.transactions =
      .ok [] ∧
    ([] : List Tx) ≠ [createChangeThresholdTransaction "S" 2] := by
  decide

/-- C3 (counterexample): an out-of-range threshold does not make
`generateTransactions` fail.  The `src/lib/index.js` pipeline has no threshold
guard at all: with current = [A], desired = \x7bA, B\x7d and threshold 5 > 2 it
returns a batch (a single `addOwnerWithThreshold` carrying threshold 5); and
the guard of the `src/unnamed/part_003` variant accepts the out-of-range
threshold 0 < 1. -/
theorem c3_counterexample :
    (generateBatch "S" "1" 0 ["A"] 1 ["A", "B"] (some 5)).map
      (fun b => b.transactions.map Tx.methodName) = .ok ["addOwnerWithThreshold"] ∧
    thresholdGuard 0 2 = .ok () := by
  decide

/-- C3 (amended): the only threshold validation in the repository is the
`part_003` guard, which fails exactly when the threshold exceeds the number of
new owners — thresholds below 1 are accepted — and the primary
`src/lib/index.js` pipeline performs no threshold validation at all: it
returns a batch for every threshold value. -/
theorem c3_amended_guard :
    (∀ (t : Int) (n : Nat), (∃ e, thresholdGuard t n = .error e) ↔ (n : Int) < t) ∧
    ∀ t : Int, ∃ batch, generateBatch "S" "1" 0 ["A"] 1 ["A", "B"] (some t) = .ok batch := by
  constructor
  · intro t n
    constructor
    · intro ⟨e, he⟩
      unfold thresholdGuard at he
      split_ifs at he with h
      exact h
    · intro h
      refine ⟨"Threshold is bigger than the number of new owners.", ?_⟩
      unfold thresholdGuard
      rw [if_pos h]
  · intro t
    exact ⟨_, rfl⟩

/-- C3 (witness): the amended statement at concrete inputs — the guard
rejects threshold 3 of 2 owners, and the lib pipeline returns a batch for
threshold 7. -/
theorem c3_witness :
    (∃ e, thresholdGuard 3 2 = .error e) ∧
    ∃ batch, generateBatch "S" "1" 0 ["A"] 1 ["A", "B"] (some 7) = .ok batch :=
  ⟨(c3_amended_guard.1 3 2).mpr (by decide), c3_amended_guard.2 7⟩

/-- C4 (code bug): for duplicate-free current = [A, B] and desired = [A]
(desired smaller than current), the alignment output is `[A, null]`: the
unfilled position is left as a `null` placeholder instead of resolving to a
removal, and the output is not the same multiset as the desired owners. -/
theorem c4_alignment_null_placeholder_bug :
    reorderNewOwners ["A", "B"] ["A"] = [some "A", none] ∧
    none ∈ reorderNewOwners ["A", "B"] ["A"] ∧
    reorderNewOwners ["A", "B"] ["A"] ≠ ["A"].map some := by
  decide

/-- C5 (confirmed): for every pair of input sequences, `calculateEditOperations`
succeeds and the number of operations it emits equals the unit-cost edit
distance between the two sequences — both per the reference `lev` defined in
this file and per Mathlib's independent `levenshtein` with the default unit
cost structure. -/
theorem c5_opcount_eq_editDistance (xs ys : List OVal) :
    ∃ ops, calculateEditOperations xs ys = some ops ∧
      ops.length = lev xs ys ∧
      ops.length = levenshtein Levenshtein.defaultCost xs ys := by
  obtain ⟨ops, h1, h2, _⟩ := calculateEditOperations_spec xs ys
  exact ⟨ops, h1, h2, by rw [h2, lev_eq_levenshtein]⟩

/-- C5 (witness): the operation count equals the edit distance on a concrete
pair of sequences. -/
theorem c5_witness :
    ∃ ops, calculateEditOperations [some "A", some "B"] [some "B"] = some ops ∧
      ops.length = lev [some "A", some "B"] [some "B"] ∧
      ops.length = levenshtein Levenshtein.defaultCost [some "A", some "B"] [some "B"] :=
  c5_opcount_eq_editDistance [some "A", some "B"] [some "B"]

/-- C7 (code bug): for current = [A, B, C, D] and desired = \x7bB, D\x7d the emitted
script is `swap(A → null), swap(C → null)`; after the second mutation the
successor chain from the sentinel visits only \x7bnull, D\x7d while the remaining
owner set after the operations is \x7bB, D, null\x7d — owner B is no longer reachable
from the sentinel, so the linked-list invariant is not preserved by every
mutation during batch construction. -/
theorem c7_invariant_broken_bug :
    calculateEditOperations (["A", "B", "C", "D"].map some)
        (reorderNewOwners ["A", "B", "C", "D"] ["B", "D"]) =
      some [.swap (some "A") none, .swap (some "C") none] ∧
    chainVisits (applyOps (some SENTINEL_OWNERS)
        (buildOwnerLinkedList (["A", "B", "C", "D"].map some) (some SENTINEL_OWNERS))
        [.swap (some "A") none, .swap (some "C") none]) (some SENTINEL_OWNERS) =
      [none, some "D"] ∧
    some "B" ∈ replayOps (["A", "B", "C", "D"].map some)
        [.swap (some "A") none, .swap (some "C") none] ∧
    some "B" ∉ chainVisits (applyOps (some SENTINEL_OWNERS)
        (buildOwnerLinkedList (["A", "B", "C", "D"].map some) (some SENTINEL_OWNERS))
        [.swap (some "A") none, .swap (some "C") none]) (some SENTINEL_OWNERS) := by
  decide

/-- C8 (code bug): two different batches — differing in `meta.description`, in
the owner argument and in the threshold argument of their only transaction —
produce the same checksum input string: the replacer array passed to
`JSON.stringify` drops every nested key, so `meta` and each transaction
serialize as empty objects and the checksum does not change when batch
contents change. -/
theorem c8_checksum_collision :
    serializeForChecksum
        { version := "1.0", chainId := "1", createdAt := 123,
          meta := { name := "Transactions Batch", description := "",
                    txBuilderVersion := "1.0.0", createdFromSafeAddress := "S",
                    createdFromOwnerAddress := "", checksum := "" },
          transactions := [createAddOwnerTransaction "S" (some "A") 2] } =
      serializeForChecksum
        { version := "1.0", chainId := "1", createdAt := 123,
          meta := { name := "Transactions Batch", description := "tampered",
                    txBuilderVersion := "1.0.0", createdFromSafeAddress := "S",
                    createdFromOwnerAddress := "", checksum := "" },
          transactions := [createAddOwnerTransaction "S" (some "B") 3] } ∧
    ({ version := "1.0", chainId := "1", createdAt := 123,
       meta := { name := "Transactions Batch", description := "",
                 txBuilderVersion := "1.0.0", createdFromSafeAddress := "S",
                 createdFromOwnerAddress := "", checksum := "" },
       transactions := [createAddOwnerTransaction "S" (some "A") 2] } : Batch) ≠
      { version := "1.0", chainId := "1", createdAt := 123,
        meta := { name := "Transactions Batch", description := "tampered",
                  txBuilderVersion := "1.0.0", createdFromSafeAddress := "S",
                  createdFromOwnerAddress := "", checksum := "" },
        transactions := [createAddOwnerTransaction "S" (some "B") 3] } := by
  decide

/-- C9 (counterexample): for current = [A, B, C] and desired = \x7bA, C, D\x7d with
the threshold unchanged, the pipeline emits a single `swapOwner` transaction,
not the `removeOwner(A, B, threshold)` / `addOwnerWithThreshold(D, threshold)`
pair the claim describes. -/
theorem c9_counterexample :
    (generateBatch "S" "1" 0 ["A", "B", "C"] 2 ["A", "C", "D"] none).map
      (fun b => b.transactions.map Tx.methodName) = .ok ["swapOwner"] ∧
    (["swapOwner"] : List String) ≠ ["removeOwner", "addOwnerWithThreshold"] := by
  decide

/-- C9 (amended): for current = [A, B, C] and desired = \x7bA, C, D\x7d with the
threshold unchanged, the alignment keeps A at index 0 and C at index 2 but
fills B's hole with D (aligned = [A, D, C]), and the pipeline emits exactly
one transaction: `swapOwner(prevOwner = A, oldOwner = B, newOwner = D)`. -/
theorem c9_amended_single_swap :
    reorderNewOwners ["A", "B", "C"] ["A", "C", "D"] = [some "A", some "D", some "C"] ∧
    (generateBatch "S" "1" 0 ["A", "B", "C"] 2 ["A", "C", "D"] none).map
      Batch.transactions =
      .ok [createSwapOwnerTransaction "S" (some "B") (some "D")
        (buildOwnerLinkedList (["A", "B", "C"].map some) (some SENTINEL_OWNERS))] ∧
    (createSwapOwnerTransaction "S" (some "B") (some "D")
        (buildOwnerLinkedList (["A", "B", "C"].map some) (some SENTINEL_OWNERS))).prevOwnerArg =
      some (some "A") := by
  decide

/-- The add transaction has no `prevOwner` argument. -/
theorem mkTxForOp_add_prevOwner (safeAddress : Addr) (threshold : Int) (m : LL)
    (o : OVal) :
    (mkTxForOp safeAddress threshold m (.add o)).prevOwnerArg = none := rfl

/-- C6 (confirmed): for every operation list, the `k`-th emitted transaction's
`prevOwner` argument (for Swap and Remove; Add has none) equals the
predecessor of the affected owner in the linked list obtained by applying the
first `k` operations to a list freshly seeded from the fetched current owners
— the simulator is mutated immediately after each emission, so every
`prevOwner` reflects the state after all earlier operations, never a stale
reference. -/
theorem c6_prevOwner_fresh_replay (safeAddress : Addr) (threshold : Int)
    (currentOwners : List Addr) (ops : List (EditOp OVal)) (k : Nat)
    (hk : k < ops.length) :
    ((processOps safeAddress threshold (some SENTINEL_OWNERS)
        (buildOwnerLinkedList (currentOwners.map some) (some SENTINEL_OWNERS))
        ops).2.get? k).map Tx.prevOwnerArg =
      some (match ops.get ⟨k, hk⟩ with
        | .swap old _ => some (getPrevOwner old (applyOps (some SENTINEL_OWNERS)
            (buildOwnerLinkedList (currentOwners.map some) (some SENTINEL_OWNERS))
            (ops.take k)))
        | .remove o => some (getPrevOwner o (applyOps (some SENTINEL_OWNERS)
            (buildOwnerLinkedList (currentOwners.map some) (some SENTINEL_OWNERS))
            (ops.take k)))
        | .add _ => none) := by
  rw [processOps_get safeAddress threshold (some SENTINEL_OWNERS) ops
    (buildOwnerLinkedList (currentOwners.map some) (some SENTINEL_OWNERS)) k hk]
  rw [List.get?_eq_get hk]
  simp only [Option.getD_some, Option.map_some']
  cases hop : ops.get ⟨k, hk⟩ with
  | swap old new => rw [mkTxForOp_swap_prevOwner]
  | add o => rw [mkTxForOp_add_prevOwner]
  | remove o => rw [mkTxForOp_remove_prevOwner]

/-- C6 (witness): concrete instance — removing the first of two owners emits
`prevOwner` equal to the predecessor (the sentinel) in the freshly seeded
list. -/
theorem c6_witness :
    ((processOps "S" 1 (some SENTINEL_OWNERS)
        (buildOwnerLinkedList (["A", "B"].map some) (some SENTINEL_OWNERS))
        [.remove (some "A")]).2.get? 0).map Tx.prevOwnerArg =
      some (some (getPrevOwner (some "A") (applyOps (some SENTINEL_OWNERS)
        (buildOwnerLinkedList (["A", "B"].map some) (some SENTINEL_OWNERS)) []))) :=
  c6_prevOwner_fresh_replay "S" 1 ["A", "B"] [.remove (some "A")] 0 (by decide)

theorem getAddressModel_ok_eq {s : String} {a : Addr}
    (h : getAddressModel s = .ok a) : a = lowerHexStr s := by
  unfold getAddressModel at h
  split_ifs at h
  simpa using h.symm

/-- C10 (confirmed, against the spec-modelled normalizer): (i) when the safe
address, fetched current owners and validated new owners are normalized —
which is what `ethers.getAddress` produces at lines 34, 40-49 and 67 — every
address value in the output batch (transaction targets, `prevOwner`,
`oldOwner`, `newOwner` and `owner` arguments, and `createdFromSafeAddress`) is
in checksum-normalized canonical form; (ii) two valid input strings that spell
the same address in different letter case validate to the same canonical form
and make `generateTransactions` fail with the duplicate-owners error; (iii)
an input string rejected by the normalizer makes the validation loop fail —
that loop runs before the provider is created and before any contract read,
so no network state is used. -/
theorem c10_normalization :
    (∀ (safe : Addr) (chainId : String) (createdAt : Nat) (cur : List Addr)
        (curThr : Int) (ins : List String) (vnew : List Addr) (nthr : Option Int)
        (b : Batch),
        isNormalized safe → (∀ a ∈ cur, isNormalized a) →
        validateNewOwners ins = .ok vnew →
        generateBatch safe chainId createdAt cur curThr vnew nthr = .ok b →
        ∀ v ∈ batchAddressVals b, ∀ a, v = some a → isNormalized a) ∧
    (∀ (s1 s2 : String) (a1 a2 : Addr),
        getAddressModel (trimString s1) = .ok a1 → getAddressModel (trimString s2) = .ok a2 →
        lowerHexStr (trimString s1) = lowerHexStr (trimString s2) →
        validateNewOwners [s1, s2] = .ok [a1, a2] ∧ a1 = a2 ∧
        ∀ (safe chainId : String) (createdAt : Nat) (cur : List Addr) (curThr : Int)
          (nthr : Option Int),
          generateBatch safe chainId createdAt cur curThr [a1, a2] nthr =
            .error "Duplicate addresses found in the new owners list.") ∧
    (∀ (l : List String) (s : String), s ∈ l →
        (∀ a, getAddressModel (trimString s) ≠ .ok a) →
        ∃ e, validateNewOwners l = .error e) := by
  refine ⟨?_, ?_, ?_⟩
  · intro safe chainId createdAt cur curThr ins vnew nthr b hsafe hcur hval hok v hv a hva
    exact generateBatch_norm hsafe hcur (validateNewOwners_ok_normalized hval) hok v hv a hva
  · intro s1 s2 a1 a2 h1 h2 heq
    have ha1 : a1 = lowerHexStr (trimString s1) := getAddressModel_ok_eq h1
    have ha2 : a2 = lowerHexStr (trimString s2) := getAddressModel_ok_eq h2
    have haa : a1 = a2 := by rw [ha1, ha2, heq]
    refine ⟨?_, haa, ?_⟩
    · simp [validateNewOwners, h1, h2]
    · intro safe chainId createdAt cur curThr nthr
      subst haa
      have hdup : ¬([a1, a1] : List Addr).Nodup := by simp
      unfold generateBatch
      rw [if_pos hdup]
  · intro l s hs hbad
    exact validateNewOwners_error_of_invalid hs hbad

/-- C10 (witness): the same 40-hex-digit address spelled in upper and lower
case validates to one canonical form and is rejected as a duplicate pair. -/
theorem c10_witness :
    validateNewOwners ["0xAAAAAAAAAAAAAAAAAAAAAAAAAAAAAAAAAAAAAAAA",
        "0xaaaaaaaaaaaaaaaaaaaaaaaaaaaaaaaaaaaaaaaa"] =
      .ok ["0xaaaaaaaaaaaaaaaaaaaaaaaaaaaaaaaaaaaaaaaa",
        "0xaaaaaaaaaaaaaaaaaaaaaaaaaaaaaaaaaaaaaaaa"] ∧
    ("0xaaaaaaaaaaaaaaaaaaaaaaaaaaaaaaaaaaaaaaaa" : Addr) =
      "0xaaaaaaaaaaaaaaaaaaaaaaaaaaaaaaaaaaaaaaaa" ∧
    ∀ (safe chainId : String) (createdAt : Nat) (cur : List Addr) (curThr : Int)
      (nthr : Option Int),
      generateBatch safe chainId createdAt cur curThr
          ["0xaaaaaaaaaaaaaaaaaaaaaaaaaaaaaaaaaaaaaaaa",
            "0xaaaaaaaaaaaaaaaaaaaaaaaaaaaaaaaaaaaaaaaa"] nthr =
        .error "Duplicate addresses found in the new owners list." :=
  c10_normalization.2.1 "0xAAAAAAAAAAAAAAAAAAAAAAAAAAAAAAAAAAAAAAAA"
    "0xaaaaaaaaaaaaaaaaaaaaaaaaaaaaaaaaaaaaaaaa"
    "0xaaaaaaaaaaaaaaaaaaaaaaaaaaaaaaaaaaaaaaaa"
    "0xaaaaaaaaaaaaaaaaaaaaaaaaaaaaaaaaaaaaaaaa"
    (by decide) (by decide) (by decide)

end SafeOwnerManager
